import Mathlib

/-
Verification of the event-dispatch core of the `gu` library (src/gu.go).

The Go code works over five interfaces: State, In, Out, Waiter and Ready.
A shallow embedding represents each interface by an abstract carrier type
(`S`, `I`, `O`, `W`, `R`, plus `E` for Go's `error`) together with a record
`Methods` holding one field per interface method:

  - `Waiters  : S → List W`          -- State.Waiters
  - `FatalErr : S → Option E`        -- State.FatalErr (none = nil)
  - `Router   : I → W → R`           -- In.Router
  - `InUpdate : I → S → S × List O`  -- In.Update
  - `Io       : O → List I`          -- Out.Io, abstracted as the sequence of
                                        events the action pushes on the channel
  - `Fast     : O → Bool`            -- Out.Fast
  - `Expected : W → I → Option R × Bool` -- Waiter.Expected; a nil Ready
                                            interface value is `none`
  - `ReadyUpdate : R → S → S × List O`   -- Ready.Update

`update` is translated literally from gu.go lines 148-156; calling
`Update` on a nil Ready (Go: panic) is modelled as the result `none`.

The `Run` loop (gu.go lines 125-146) is modelled twice:
  - `runTrace` abstracts the channel by an oracle list of delivered events;
    every execution of the Go loop delivers some such sequence, so
    statements quantified over all traces cover all schedules.
  - `loopStepDet` is one deterministic loop iteration with an explicit
    capacity-1 channel; it is exact when no slow effect is spawned (it
    returns `none` when the behaviour is blocked, panicked, or depends on
    goroutine scheduling).
-/

namespace Gu

structure Methods (S I O W R E : Type) where
  Waiters : S → List W
  FatalErr : S → Option E
  Router : I → W → R
  InUpdate : I → S → S × List O
  Io : O → List I
  Fast : O → Bool
  Expected : W → I → Option R × Bool
  ReadyUpdate : R → S → S × List O

variable {S I O W R E : Type}

/-
Go (gu.go 148-156):
  func update(state State, in In) (State, []Out) {
    for _, waiter := range state.Waiters() {
      ready, relevant := waiter.Expected(in)
      if relevant {
        return ready.Update(state)
      }
    }
    return in.Update(state)
  }
`Expected` is pure, so projecting its two components separately below is
the same as Go's single call binding `ready, relevant`.
-/
def updateLoop (m : Methods S I O W R E) (state : S) (inp : I) :
    List W → Option (S × List O)
  | [] => some (m.InUpdate inp state)
  | waiter :: rest =>
    if (m.Expected waiter inp).2 then
      match (m.Expected waiter inp).1 with
      | some ready => some (m.ReadyUpdate ready state)
      | none => none
    else updateLoop m state inp rest

def update (m : Methods S I O W R E) (state : S) (inp : I) :
    Option (S × List O) :=
  updateLoop m state inp (m.Waiters state)

/-
Instrumented copy of `updateLoop` that also records, in order, the waiters
whose `Expected` method was called. `updateConsultedLoop_fst` ties it to
`updateLoop`.
-/
def updateConsultedLoop (m : Methods S I O W R E) (state : S) (inp : I) :
    List W → Option (S × List O) × List W
  | [] => (some (m.InUpdate inp state), [])
  | waiter :: rest =>
    if (m.Expected waiter inp).2 then
      ((match (m.Expected waiter inp).1 with
        | some ready => some (m.ReadyUpdate ready state)
        | none => none), [waiter])
    else
      ((updateConsultedLoop m state inp rest).1,
        waiter :: (updateConsultedLoop m state inp rest).2)

def consulted (m : Methods S I O W R E) (state : S) (inp : I) : List W :=
  (updateConsultedLoop m state inp (m.Waiters state)).2

/- Every Expected call that answers `true` also returns a non-nil Ready. -/
def WellFormed (m : Methods S I O W R E) : Prop :=
  ∀ (w : W) (i : I), (m.Expected w i).2 = true → ((m.Expected w i).1).isSome

lemma updateConsultedLoop_fst (m : Methods S I O W R E) (s : S) (e : I) :
    ∀ l : List W, (updateConsultedLoop m s e l).1 = updateLoop m s e l := by
  intro l
  induction l with
  | nil => rfl
  | cons w rest ih =>
    by_cases h : (m.Expected w e).2 = true
    · simp [updateConsultedLoop, updateLoop, h]
    · simp [updateConsultedLoop, updateLoop, h, ih]

lemma updateLoop_no_claim (m : Methods S I O W R E) (s : S) (e : I) :
    ∀ l : List W, (∀ w ∈ l, (m.Expected w e).2 = false) →
      updateLoop m s e l = some (m.InUpdate e s) := by
  intro l
  induction l with
  | nil => intro _; rfl
  | cons w rest ih =>
    intro h
    have hw : (m.Expected w e).2 = false := h w (List.mem_cons_self w rest)
    simp [updateLoop, hw]
    exact ih fun w' hw' => h w' (List.mem_cons_of_mem w hw')

lemma updateLoop_first (m : Methods S I O W R E) (s : S) (e : I) (w : W) :
    ∀ (l : List W) (i : Nat), l[i]? = some w →
      (∀ j, j < i → ∀ w', l[j]? = some w' → (m.Expected w' e).2 = false) →
      (m.Expected w e).2 = true →
      updateLoop m s e l =
        (match (m.Expected w e).1 with
         | some ready => some (m.ReadyUpdate ready s)
         | none => none) := by
  intro l
  induction l with
  | nil => intro i hi; simp at hi
  | cons a rest ih =>
    intro i hi hfirst hclaim
    cases i with
    | zero =>
      have ha : a = w := by simpa using hi
      subst ha
      simp [updateLoop, hclaim]
    | succ j =>
      have ha : (m.Expected a e).2 = false :=
        hfirst 0 (Nat.succ_pos j) a (by simp)
      have hi' : rest[j]? = some w := by simpa using hi
      have hfirst' : ∀ k, k < j → ∀ w', rest[k]? = some w' →
          (m.Expected w' e).2 = false := by
        intro k hk w' hw'
        exact hfirst (k + 1) (Nat.succ_lt_succ hk) w' (by simpa using hw')
      simp [updateLoop, ha]
      exact ih j hi' hfirst' hclaim

lemma updateConsultedLoop_take (m : Methods S I O W R E) (s : S) (e : I)
    (w : W) :
    ∀ (l : List W) (i : Nat), l[i]? = some w →
      (∀ j, j < i → ∀ w', l[j]? = some w' → (m.Expected w' e).2 = false) →
      (m.Expected w e).2 = true →
      (updateConsultedLoop m s e l).2 = l.take (i + 1) := by
  intro l
  induction l with
  | nil => intro i hi; simp at hi
  | cons a rest ih =>
    intro i hi hfirst hclaim
    cases i with
    | zero =>
      have ha : a = w := by simpa using hi
      subst ha
      simp [updateConsultedLoop, hclaim]
    | succ j =>
      have ha : (m.Expected a e).2 = false :=
        hfirst 0 (Nat.succ_pos j) a (by simp)
      have hi' : rest[j]? = some w := by simpa using hi
      have hfirst' : ∀ k, k < j → ∀ w', rest[k]? = some w' →
          (m.Expected w' e).2 = false := by
        intro k hk w' hw'
        exact hfirst (k + 1) (Nat.succ_lt_succ hk) w' (by simpa using hw')
      simp [updateConsultedLoop, ha]
      exact ih j hi' hfirst' hclaim

lemma updateLoop_isSome (m : Methods S I O W R E) (hwf : WellFormed m)
    (s : S) (e : I) :
    ∀ l : List W, (updateLoop m s e l).isSome := by
  intro l
  induction l with
  | nil => simp [updateLoop]
  | cons a rest ih =>
    by_cases h : (m.Expected a e).2 = true
    · have := hwf a e h
      rcases Option.isSome_iff_exists.mp this with ⟨r, hr⟩
      simp [updateLoop, h, hr]
    · simp [updateLoop, h, ih]

lemma update_isSome_of_wf (m : Methods S I O W R E) (hwf : WellFormed m)
    (s : S) (e : I) : (update m s e).isSome :=
  updateLoop_isSome m hwf s e (m.Waiters s)

/- The routing result depends only on the four method fields `update` reads. -/
lemma updateLoop_ext (m m' : Methods S I O W R E) (s : S) (e : I)
    (hE : m'.Expected = m.Expected) (hR : m'.ReadyUpdate = m.ReadyUpdate)
    (hI : m'.InUpdate = m.InUpdate) :
    ∀ l : List W, updateLoop m' s e l = updateLoop m s e l := by
  intro l
  induction l with
  | nil => simp [updateLoop, hI]
  | cons a rest ih =>
    by_cases h : (m.Expected a e).2 = true
    · simp [updateLoop, hE, hR, h]
    · simp [updateLoop, hE, h, ih]

lemma update_ext (m m' : Methods S I O W R E) (s : S) (e : I)
    (hW : m'.Waiters = m.Waiters) (hE : m'.Expected = m.Expected)
    (hR : m'.ReadyUpdate = m.ReadyUpdate) (hI : m'.InUpdate = m.InUpdate) :
    update m' s e = update m s e := by
  unfold update
  rw [hW]
  exact updateLoop_ext m m' s e hE hR hI (m.Waiters s)

/-
Go (gu.go 125-146):
  func Run(init Init) error {
    state := init.InitState()
    outputs := init.InitOutputs()
    inChan := make(chan In, 1)
    for state.FatalErr() == nil {
      for _, output := range outputs {
        if output.Fast() { output.Io(inChan) } else { go output.Io(inChan) }
      }
      in := <-inChan
      state, outputs = update(state, in)
    }
    return state.FatalErr()
  }

`runTrace` is the loop with the channel abstracted to the sequence of
events `<-inChan` delivers. A result `some e` means the loop exits and
returns `e`; `none` means the loop has not returned within the observed
trace (blocked, panicked on a nil Ready, or still running).
-/
def runTrace (m : Methods S I O W R E) : S → List O → List I → Option E
  | s, _, [] =>
    match m.FatalErr s with
    | some e => some e
    | none => none
  | s, _, inp :: rest =>
    match m.FatalErr s with
    | some e => some e
    | none =>
      match update m s inp with
      | some (s2, outs2) => runTrace m s2 outs2 rest
      | none => none

/- States reachable from `s` by dispatch steps of `update`. -/
inductive Reachable (m : Methods S I O W R E) : S → S → Prop where
  | refl (s : S) : Reachable m s s
  | step {s s' s'' : S} {e : I} {outs : List O} :
      Reachable m s s' → update m s' e = some (s'', outs) →
      Reachable m s s''

lemma Reachable.head {m : Methods S I O W R E} {s s2 t : S} {e : I}
    {outs : List O} (hstep : update m s e = some (s2, outs))
    (h : Reachable m s2 t) : Reachable m s t := by
  induction h with
  | refl => exact Reachable.step (Reachable.refl s) hstep
  | step hr hu ih => exact Reachable.step ih hu

lemma runTrace_some (m : Methods S I O W R E) :
    ∀ (evs : List I) (s : S) (outs : List O) (err : E),
      runTrace m s outs evs = some err →
      ∃ s', Reachable m s s' ∧ m.FatalErr s' = some err := by
  intro evs
  induction evs with
  | nil =>
    intro s outs err h
    cases hf : m.FatalErr s with
    | none => simp [runTrace, hf] at h
    | some e =>
      refine ⟨s, Reachable.refl s, ?_⟩
      simp [runTrace, hf] at h
      rw [hf, h]
  | cons inp rest ih =>
    intro s outs err h
    cases hf : m.FatalErr s with
    | some e =>
      refine ⟨s, Reachable.refl s, ?_⟩
      simp [runTrace, hf] at h
      rw [hf, h]
    | none =>
      cases hu : update m s inp with
      | none => simp [runTrace, hf, hu] at h
      | some p =>
        have h' : runTrace m p.1 p.2 rest = some err := by
          simpa [runTrace, hf, hu] using h
        rcases ih p.1 p.2 err h' with ⟨s', hr, hfat⟩
        exact ⟨s', Reachable.head (by simpa using hu) hr, hfat⟩

lemma runTrace_none (m : Methods S I O W R E) :
    ∀ (evs : List I) (s : S),
      (∀ s', Reachable m s s' → m.FatalErr s' = none) →
      ∀ outs : List O, runTrace m s outs evs = none := by
  intro evs
  induction evs with
  | nil =>
    intro s h outs
    simp [runTrace, h s (Reachable.refl s)]
  | cons inp rest ih =>
    intro s h outs
    have hf : m.FatalErr s = none := h s (Reachable.refl s)
    cases hu : update m s inp with
    | none => simp [runTrace, hf, hu]
    | some p =>
      have h2 : ∀ s', Reachable m p.1 s' → m.FatalErr s' = none := by
        intro s' hr
        exact h s' (Reachable.head (by simpa using hu) hr)
      simp [runTrace, hf, hu, ih p.1 h2 p.2]

/-
Deterministic model of one pass of the loop body with the channel explicit.
The channel `make(chan In, 1)` holds at most one buffered event; a fast
effect pushing into a full buffer blocks the loop forever (nothing can
drain the buffer while the loop is inside the Io call), modelled as `none`.
-/
def chanCap : Nat := 1

def push (chan : List I) (e : I) : Option (List I) :=
  if chan.length < chanCap then some (chan ++ [e]) else none

def pushAll : List I → List I → Option (List I)
  | chan, [] => some chan
  | chan, e :: rest =>
    match push chan e with
    | some chan2 => pushAll chan2 rest
    | none => none

/-
The inner `for _, output := range outputs` loop: fast effects run inline,
pushing their events in order; slow effects are spawned, returned as the
second component with their Io not executed by the loop.
-/
def execOutputs (m : Methods S I O W R E) :
    List O → List I → Option (List I × List O)
  | [], chan => some (chan, [])
  | o :: rest, chan =>
    if m.Fast o then
      match pushAll chan (m.Io o) with
      | some chan2 => execOutputs m rest chan2
      | none => none
    else
      match execOutputs m rest chan with
      | some (chan2, spawned) => some (chan2, o :: spawned)
      | none => none

inductive LoopRes (S O I E : Type) where
  | exit (e : E)
  | cont (s : S) (outs : List O) (chan : List I)
deriving DecidableEq

/-
One iteration of the Run loop: check the fatal slot, run the effects,
receive one event, dispatch. Deterministic only when no slow effect is
spawned and an event is buffered; every other case (scheduling-dependent
behaviour, blocked receive, deadlocked push, nil-Ready panic) is `none`.
-/
def loopStepDet (m : Methods S I O W R E) (s : S) (outs : List O)
    (chan : List I) : Option (LoopRes S O I E) :=
  match m.FatalErr s with
  | some e => some (LoopRes.exit e)
  | none =>
    match execOutputs m outs chan with
    | none => none
    | some (chan2, spawned) =>
      match spawned with
      | _ :: _ => none
      | [] =>
        match chan2 with
        | [] => none
        | e :: restChan =>
          match update m s e with
          | none => none
          | some (s2, outs2) => some (LoopRes.cont s2 outs2 restChan)

/- A first-true-position analysis of a boolean test over a list. -/
lemma exists_first_claim {α : Type} (p : α → Bool) :
    ∀ l : List α, (∀ x ∈ l, p x = false) ∨
      ∃ (i : Nat) (x : α), l[i]? = some x ∧ p x = true ∧
        ∀ j, j < i → ∀ y, l[j]? = some y → p y = false := by
  intro l
  induction l with
  | nil => left; simp
  | cons a rest ih =>
    by_cases ha : p a = true
    · right
      exact ⟨0, a, by simp, ha, fun j hj y _ => absurd hj (Nat.not_lt_zero j)⟩
    · have ha' : p a = false := by simpa using ha
      cases ih with
      | inl h =>
        left
        intro x hx
        rcases List.mem_cons.mp hx with h1 | h2
        · rw [h1]; exact ha'
        · exact h x h2
      | inr h =>
        rcases h with ⟨i, x, hx, hpx, hfirst⟩
        right
        refine ⟨i + 1, x, by simpa using hx, hpx, ?_⟩
        intro j hj y hy
        cases j with
        | zero =>
          have : y = a := by simpa using hy.symm
          rw [this]; exact ha'
        | succ k =>
          exact hfirst k (Nat.lt_of_succ_lt_succ hj) y (by simpa using hy)

/-
Concrete instantiation used as a test fixture: states carry a counter, a
waiter list and a fatal slot; events, effects, waiters and resolutions are
all numbers. Event 0 plays the role of `Tick`: its default transition
increments the counter and emits no effects. A waiter claims exactly the
event equal to its own number and resolves by adding `100 + r` to the
counter. Every effect is fast and pushes one `Tick`.
-/
structure CState where
  counter : Nat
  waiters : List Nat
  fatalErr : Option Nat
deriving DecidableEq

def tickM : Methods CState Nat Nat Nat Nat Nat where
  Waiters := fun s => s.waiters
  FatalErr := fun s => s.fatalErr
  Router := fun _ _ => 0
  InUpdate := fun _ s => ({ s with counter := s.counter + 1 }, [])
  Io := fun _ => [0]
  Fast := fun _ => true
  Expected := fun w i => (some w, w == i)
  ReadyUpdate := fun r s => ({ s with counter := s.counter + 100 + r }, [])

/- A fixture whose Expected claims every event but returns a nil Ready. -/
def badM : Methods CState Nat Nat Nat Nat Nat where
  Waiters := fun s => s.waiters
  FatalErr := fun s => s.fatalErr
  Router := fun _ _ => 0
  InUpdate := fun _ s => (s, [])
  Io := fun _ => []
  Fast := fun _ => true
  Expected := fun _ _ => (none, true)
  ReadyUpdate := fun _ s => (s, [])

/-- Claim C1: first-match-wins routing. If `w` is the lowest-index waiter of
state `s` whose claim-test answers true for event `e` and its Resolution is
`r`, then `update s e` is exactly the result of invoking `r`'s transition on
`s`, and the waiters whose claim-test is evaluated are exactly the prefix of
the stored order up to and including `w`: no later waiter is queried. -/
theorem gu_C1 (m : Methods S I O W R E) (s : S) (e : I) (i : Nat) (w : W)
    (r : R) (hw : (m.Waiters s)[i]? = some w)
    (hfirst : ∀ j, j < i → ∀ w', (m.Waiters s)[j]? = some w' →
      (m.Expected w' e).2 = false)
    (hclaim : (m.Expected w e).2 = true)
    (hr : (m.Expected w e).1 = some r) :
    update m s e = some (m.ReadyUpdate r s) ∧
    consulted m s e = (m.Waiters s).take (i + 1) ∧
    (updateConsultedLoop m s e (m.Waiters s)).1 = update m s e := by
  refine ⟨?_, ?_, updateConsultedLoop_fst m s e (m.Waiters s)⟩
  · have h := updateLoop_first m s e w (m.Waiters s) i hw hfirst hclaim
    rw [update, h, hr]
  · exact updateConsultedLoop_take m s e w (m.Waiters s) i hw hfirst hclaim

theorem gu_C1_witness :
    update tickM ⟨0, [5, 7], none⟩ 7 =
      some (tickM.ReadyUpdate 7 ⟨0, [5, 7], none⟩) ∧
    consulted tickM ⟨0, [5, 7], none⟩ 7 =
      (tickM.Waiters ⟨0, [5, 7], none⟩).take 2 ∧
    (updateConsultedLoop tickM ⟨0, [5, 7], none⟩ 7
      (tickM.Waiters ⟨0, [5, 7], none⟩)).1 =
      update tickM ⟨0, [5, 7], none⟩ 7 :=
  gu_C1 tickM ⟨0, [5, 7], none⟩ 7 1 7 7 (by decide)
    (by intro j hj w' hw'; interval_cases j; simp_all [tickM]; omega) (by decide)
    (by decide)

/-- Claim C2: default-path correctness. If no waiter of state `s` claims
event `e`, then `update s e` is exactly the result of `e`'s own Update
transition on `s`. -/
theorem gu_C2 (m : Methods S I O W R E) (s : S) (e : I)
    (h : ∀ w ∈ m.Waiters s, (m.Expected w e).2 = false) :
    update m s e = some (m.InUpdate e s) :=
  updateLoop_no_claim m s e (m.Waiters s) h

theorem gu_C2_witness :
    update tickM ⟨0, [5], none⟩ 7 = some (tickM.InUpdate 7 ⟨0, [5], none⟩) :=
  gu_C2 tickM ⟨0, [5], none⟩ 7 (by decide)

/-- Claim C3: the Run loop terminates only by reaching a state whose fatal
slot is set, and then returns exactly that FatalErr value; if no reachable
state ever has a non-nil FatalErr, then no delivered event trace makes the
loop return. -/
theorem gu_C3 (m : Methods S I O W R E) (s : S) :
    (∀ (outs : List O) (evs : List I) (err : E),
      runTrace m s outs evs = some err →
      ∃ s', Reachable m s s' ∧ m.FatalErr s' = some err) ∧
    ((∀ s', Reachable m s s' → m.FatalErr s' = none) →
      ∀ (outs : List O) (evs : List I), runTrace m s outs evs = none) := by
  constructor
  · intro outs evs err h
    exact runTrace_some m evs s outs err h
  · intro h outs evs
    exact runTrace_none m evs s h outs

theorem gu_C3_witness :
    ∃ s', Reachable tickM ⟨0, [], some 9⟩ s' ∧
      tickM.FatalErr s' = some 9 :=
  (gu_C3 tickM ⟨0, [], some 9⟩).1 [] [] 9 rfl

/-- Claim C4: the dispatcher is deterministic and total. Its result is a
function of the state, the event and the four supplied pure methods it
reads (Waiters, Expected, ReadyUpdate, InUpdate) — two method tables that
agree on those produce the same result — and whenever every claiming
Expected returns a valid Ready, `update` always yields a result (it never
fails or raises a fatal condition of its own). -/
theorem gu_C4 (m m' : Methods S I O W R E) (s : S) (e : I)
    (hW : m'.Waiters = m.Waiters) (hE : m'.Expected = m.Expected)
    (hR : m'.ReadyUpdate = m.ReadyUpdate) (hI : m'.InUpdate = m.InUpdate) :
    update m' s e = update m s e ∧
    (WellFormed m → (update m s e).isSome) :=
  ⟨update_ext m m' s e hW hE hR hI, fun hwf => update_isSome_of_wf m hwf s e⟩

theorem gu_C4_witness :
    update { tickM with Router := fun _ _ => 1, Io := fun _ => [] }
      ⟨0, [5], none⟩ 5 = update tickM ⟨0, [5], none⟩ 5 ∧
    (update tickM ⟨0, [5], none⟩ 5).isSome :=
  ⟨(gu_C4 tickM { tickM with Router := fun _ _ => 1, Io := fun _ => [] }
      ⟨0, [5], none⟩ 5 rfl rfl rfl rfl).1,
   (gu_C4 tickM tickM ⟨0, [5], none⟩ 5 rfl rfl rfl rfl).2
     (fun _ _ _ => rfl)⟩

/-- Claim C5: the core never alters the pending list itself. Any result of
`update` is exactly the pair produced by the single chosen transition — the
first claiming waiter's Resolution, or the event's default Update — and in
the scenario where no waiter claims the event and the default transition
leaves the waiter list unchanged, every waiter is still present in the
resulting state. -/
theorem gu_C5 (m : Methods S I O W R E) (s : S) (e : I) :
    (∀ p, update m s e = some p →
      (∃ (i : Nat) (w : W) (r : R), (m.Waiters s)[i]? = some w ∧
        (∀ j, j < i → ∀ w', (m.Waiters s)[j]? = some w' →
          (m.Expected w' e).2 = false) ∧
        (m.Expected w e).2 = true ∧ (m.Expected w e).1 = some r ∧
        p = m.ReadyUpdate r s) ∨
      ((∀ w ∈ m.Waiters s, (m.Expected w e).2 = false) ∧
        p = m.InUpdate e s)) ∧
    ((∀ w ∈ m.Waiters s, (m.Expected w e).2 = false) →
      m.Waiters (m.InUpdate e s).1 = m.Waiters s →
      ∀ w ∈ m.Waiters s, ∃ p, update m s e = some p ∧ w ∈ m.Waiters p.1) := by
  constructor
  · intro p hp
    rcases exists_first_claim (fun w => (m.Expected w e).2) (m.Waiters s) with
      hnone | ⟨i, w, hw, hclaim, hfirst⟩
    · right
      have h := updateLoop_no_claim m s e (m.Waiters s) hnone
      rw [update, h] at hp
      exact ⟨hnone, (Option.some_inj.mp hp).symm⟩
    · have h := updateLoop_first m s e w (m.Waiters s) i hw hfirst hclaim
      rw [update, h] at hp
      cases hr : (m.Expected w e).1 with
      | none => rw [hr] at hp; simp at hp
      | some r =>
        rw [hr] at hp
        left
        exact ⟨i, w, r, hw, hfirst, hclaim, hr, (Option.some_inj.mp hp).symm⟩
  · intro hnone hframe w hw
    refine ⟨m.InUpdate e s, updateLoop_no_claim m s e (m.Waiters s) hnone, ?_⟩
    rw [hframe]
    exact hw

theorem gu_C5_witness :
    ∃ p, update tickM ⟨0, [5], none⟩ 7 = some p ∧
      (5 : Nat) ∈ tickM.Waiters p.1 :=
  (gu_C5 tickM ⟨0, [5], none⟩ 7).2 (by decide) rfl 5 (by decide)

/-- Claim C6: routing never consults the event's Router capability.
Replacing the Router implementation by any other leaves the result of
`update` unchanged for every state and event. -/
theorem gu_C6 (m : Methods S I O W R E) (f : I → W → R) (s : S) (e : I) :
    update { m with Router := f } s e = update m s e :=
  update_ext m { m with Router := f } s e rfl rfl rfl rfl

/-- Claim C8: single-iteration Tick scenario. Starting from the initial
state with counter 0, an empty pending list and one fast effect whose Io
enqueues the event `Tick` (event 0, whose default transition increments the
counter and emits no effects), one iteration of the Run loop yields a state
whose counter is 1 and an empty effect list. -/
theorem gu_C8 : ∃ s1 : CState,
    loopStepDet tickM ⟨0, [], none⟩ [0] [] =
      some (LoopRes.cont s1 [] []) ∧ s1.counter = 1 :=
  ⟨⟨1, [], none⟩, by decide, rfl⟩

/-- Claim C9: the fatal-error check precedes effect execution and event
dispatch in every iteration, including the first: if the state already has
FatalErr set, the loop returns that very error for any effect list, channel
content or event trace, executing no effect and dispatching no event. -/
theorem gu_C9 (m : Methods S I O W R E) (s : S) (err : E)
    (h : m.FatalErr s = some err) :
    (∀ (outs : List O) (chan : List I),
      loopStepDet m s outs chan = some (LoopRes.exit err)) ∧
    (∀ (outs : List O) (evs : List I), runTrace m s outs evs = some err) := by
  constructor
  · intro outs chan
    simp [loopStepDet, h]
  · intro outs evs
    cases evs <;> simp [runTrace, h]

theorem gu_C9_witness :
    loopStepDet tickM ⟨0, [], some 9⟩ [0] [] = some (LoopRes.exit 9) ∧
    runTrace tickM ⟨0, [], some 9⟩ [0] [0] = some 9 :=
  ⟨(gu_C9 tickM ⟨0, [], some 9⟩ 9 rfl).1 [0] [],
   (gu_C9 tickM ⟨0, [], some 9⟩ 9 rfl).2 [0] [0]⟩

/-- Claim C10: no validity guard on the claimed Resolution. When `w` is the
first waiter claiming event `e`, its Resolution is used unconditionally:
`update` is the match on the returned Option with no other guard, it
dereferences a nil Resolution (the concrete fixture `badM` shows the crash
branch is reached), and under the precondition that every claiming Expected
returns a valid Ready the invocation is well-defined and the invalid branch
is unreachable. -/
theorem gu_C10 (m : Methods S I O W R E) (s : S) (e : I) (i : Nat) (w : W)
    (hw : (m.Waiters s)[i]? = some w)
    (hfirst : ∀ j, j < i → ∀ w', (m.Waiters s)[j]? = some w' →
      (m.Expected w' e).2 = false)
    (hclaim : (m.Expected w e).2 = true) :
    (update m s e = (match (m.Expected w e).1 with
      | some r => some (m.ReadyUpdate r s)
      | none => none)) ∧
    (WellFormed m → ∃ r, (m.Expected w e).1 = some r ∧
      update m s e = some (m.ReadyUpdate r s)) ∧
    update badM ⟨0, [5], none⟩ 0 = none := by
  have h := updateLoop_first m s e w (m.Waiters s) i hw hfirst hclaim
  refine ⟨h, ?_, by decide⟩
  intro hwf
  rcases Option.isSome_iff_exists.mp (hwf w e hclaim) with ⟨r, hr⟩
  refine ⟨r, hr, ?_⟩
  rw [update, h, hr]

theorem gu_C10_witness :
    ∃ r, (tickM.Expected 7 7).1 = some r ∧
      update tickM ⟨0, [7], none⟩ 7 =
        some (tickM.ReadyUpdate r ⟨0, [7], none⟩) :=
  (gu_C10 tickM ⟨0, [7], none⟩ 7 0 7 (by decide)
    (fun j hj => absurd hj (Nat.not_lt_zero j)) (by decide)).2.1
    (fun _ _ _ => rfl)

end Gu
